import Mathlib

/-!
The functions `check_shebang` and `main` of termux-fix-shebang: a shallow
embedding of `src/fix-shebang.c`.

* Bytes are `Char`s; the code only ever compares a byte with an ASCII
  constant.  A C string is the list of its bytes before the terminator.
* `regcomp`/`regexec` are libc: they are embedded as a small POSIX
  extended-regex matcher (`matchPieces`, `regexec`) run on the compiled form
  `shebang_regex` of the pattern string of `main`.
* The compile-time macros `TERMUX_PREFIX`, `PACKAGE_NAME` and
  `BINPRM_BUF_SIZE`, and the globals `quiet` and `dry_run`, are fields of
  `Env`.
* What a call finds outside the program (the bytes of the file, the outcome
  of `fopen`, `mkstemp`, `malloc`, `rename`, and the bytes already present in
  the memory that the code reads without having written it) is a `World`.
* The code drops the results of both `dprintf`, of `fread` and of `close`
  and renames whatever the temporary file holds; how many bytes each of
  these calls stores or delivers is part of the `World` too.  `fscanf`,
  `fseek` and `ftell` on the open file are taken to succeed.
* The name of the temporary file is not part of the embedding: `mkstemp`
  creates a new file or fails.  Nor are the messages on standard error.
-/

namespace FixShebang

/-- One byte of a file or of memory. -/
abbrev Byte := Char

/-- The string terminator. -/
def NUL : Byte := '\x00'

/-- The newline byte. -/
def NL : Byte := '\n'

/-- The C string stored at the start of `mem`: its bytes before the first
terminator. -/
def cstr (mem : List Byte) : List Byte :=
  mem.takeWhile (fun b => b != NUL)

/-- Result of `strncmp (a, b, n) == 0` on two C strings. -/
def strncmp_eq (a b : List Byte) (n : Nat) : Bool :=
  a.take n == b.take n

/-! ## The regular expression -/

/-- A single-character matcher of a POSIX extended regular expression. -/
inductive Atom where
  /-- An ordinary character. -/
  | chr (c : Byte)
  /-- A bracket expression that lists characters. -/
  | bracket (cs : List Byte)
  /-- The period. -/
  | any
  deriving DecidableEq, Repr

/-- One factor of the concatenation that makes up the pattern. -/
inductive Piece where
  /-- The atom, once. -/
  | one (a : Atom)
  /-- The atom followed by `?`. -/
  | opt (a : Atom)
  /-- A parenthesised subexpression `(a*)`. -/
  | group (a : Atom)
  deriving DecidableEq, Repr

/-- Whether the atom matches the byte.  The subject string of `regexec` holds
no terminator, and without `REG_NEWLINE` the period matches every byte. -/
def Atom.accepts : Atom → Byte → Bool
  | .chr c, x => x == c
  | .bracket cs, x => cs.contains x
  | .any, _ => true

/-- Match `a*` followed by the continuation `rest`, trying the longest
repetition first.  Returns the number of repetitions and what `rest`
returned. -/
def matchStar (a : Atom) (rest : List Byte → Option (List Nat)) :
    List Byte → Option (Nat × List Nat)
  | [] => (rest []).map (fun ls => (0, ls))
  | x :: t =>
    if a.accepts x then
      match matchStar a rest t with
      | some (k, ls) => some (k + 1, ls)
      | none => (rest (x :: t)).map (fun ls => (0, ls))
    else (rest (x :: t)).map (fun ls => (0, ls))

/-- Match the pieces at the start of the string.  Each piece, from left to
right, takes the longest string that still lets the rest match.  Returns the
number of bytes taken by each piece. -/
def matchPieces : List Piece → List Byte → Option (List Nat)
  | [] => fun _ => some []
  | .one a :: ps => fun s =>
    match s with
    | [] => none
    | x :: t => if a.accepts x then (matchPieces ps t).map (fun ls => 1 :: ls) else none
  | .opt a :: ps => fun s =>
    match s with
    | [] => (matchPieces ps []).map (fun ls => 0 :: ls)
    | x :: t =>
      if a.accepts x then
        match matchPieces ps t with
        | some ls => some (1 :: ls)
        | none => (matchPieces ps (x :: t)).map (fun ls => 0 :: ls)
      else (matchPieces ps (x :: t)).map (fun ls => 0 :: ls)
  | .group a :: ps => fun s =>
    (matchStar a (matchPieces ps) s).map (fun r => r.1 :: r.2)

/-- Search for the leftmost start at which the pieces match; `off` is the
offset of `s` in the subject string. -/
def searchFrom (re : List Piece) : List Byte → Nat → Option (Nat × List Nat)
  | [], off => (matchPieces re []).map (fun ls => (off, ls))
  | x :: t, off =>
    match matchPieces re (x :: t) with
    | some ls => some (off, ls)
    | none => searchFrom re t (off + 1)

/-- A `regmatch_t`: start and end offset of a match. -/
structure regmatch_t where
  rm_so : Nat
  rm_eo : Nat
  deriving DecidableEq, Repr

/-- The spans of the parenthesised subexpressions, in order, for pieces that
start at offset `pos` and took `ls` bytes each. -/
def groupSpans : List Piece → List Nat → Nat → List regmatch_t
  | .group _ :: ps, l :: ls, pos => ⟨pos, pos + l⟩ :: groupSpans ps ls (pos + l)
  | _ :: ps, l :: ls, pos => groupSpans ps ls (pos + l)
  | _, _, _ => []

/-- The call `regexec (&re, s, nmatch, matches, 0)`: `none` when there is no
match, else the array `matches`: entry 0 is the whole match and entry `i` the
`i`-th parenthesised subexpression. -/
def regexec (re : List Piece) (s : List Byte) : Option (List regmatch_t) :=
  (searchFrom re s 0).map (fun r => ⟨r.1, r.1 + r.2.sum⟩ :: groupSpans re r.2 r.1)

/-- The literal characters of a string as pieces. -/
def lits (s : String) : List Piece :=
  s.toList.map (fun c => Piece.one (Atom.chr c))

/-- The pattern string compiled by `main`. -/
def regex_string : String := "#![:space:]?(.*)/bin/(.*)"

/-- The characters that are special outside a bracket expression. -/
def special : List Char := "^.[$()|*+?\x7b\\".toList

/-- A bracket expression, read after its opening bracket: the characters up
to the closing bracket.  A bracket inside it (which could open a class such as
`[:space:]`, a collating symbol or an equivalence class), a range and a
leading circumflex are outside the subset. -/
def regcomp_bracket (r : List Char) : Option (Atom × List Char) :=
  let body := r.takeWhile (fun c => c != ']')
  match r.dropWhile (fun c => c != ']') with
  | [] => none
  | _ :: rest =>
    if body = [] ∨ body.head? = some '^' ∨ '[' ∈ body ∨ '-' ∈ body then none
    else some (Atom.bracket body, rest)

/-- One atom at the start of a pattern, and the rest of the pattern. -/
def regcomp_atom : List Char → Option (Atom × List Char)
  | [] => none
  | c :: r =>
    if c = '.' then some (Atom.any, r)
    else if c = '[' then regcomp_bracket r
    else if special.contains c then none
    else some (Atom.chr c, r)

/-- The pieces of a pattern; `fuel` bounds the number of pieces. -/
def regcomp_pieces : Nat → List Char → Option (List Piece)
  | 0, _ => none
  | _ + 1, [] => some []
  | fuel + 1, c :: r =>
    if c = '(' then
      match regcomp_atom r with
      | some (a, '*' :: ')' :: r2) => (regcomp_pieces fuel r2).map (fun ps => Piece.group a :: ps)
      | _ => none
    else
      match regcomp_atom (c :: r) with
      | some (a, '?' :: r2) => (regcomp_pieces fuel r2).map (fun ps => Piece.opt a :: ps)
      | some (a, r2) =>
        if r2.head? = some '*' ∨ r2.head? = some '+' ∨ r2.head? = some '\x7b' then none
        else (regcomp_pieces fuel r2).map (fun ps => Piece.one a :: ps)
      | none => none

/-- The call `regcomp (&re, pattern, REG_EXTENDED)` on the subset of POSIX
extended regular expressions made of ordinary characters, the period,
bracket expressions that list characters, the `?` operator on one of these,
and subexpressions of the form `(a*)`.  The result is `none` outside the
subset. -/
def regcomp (pattern : String) : Option (List Piece) :=
  regcomp_pieces (pattern.length + 1) pattern.toList

/-- The compiled form of `regex_string` (see `regcomp_regex_string`).  The
text `[:space:]` stands outside any bracket expression, so it is itself a
bracket expression, listing the characters `:`, `s`, `p`, `a`, `c`, `e`. -/
def shebang_regex : List Piece :=
  lits "#!" ++ [Piece.opt (Atom.bracket ":space:".toList), Piece.group Atom.any]
    ++ lits "/bin/" ++ [Piece.group Atom.any]

/-! ## The program -/

/-- The compile-time constants and the global flags. -/
structure Env where
  /-- The global `quiet`. -/
  quiet : Bool
  /-- The global `dry_run`. -/
  dry_run : Bool
  /-- The macro `TERMUX_PREFIX`, a string literal. -/
  TERMUX_PREFIX : List Byte
  /-- The macro `PACKAGE_NAME`, a string literal. -/
  PACKAGE_NAME : List Byte
  /-- The macro `BINPRM_BUF_SIZE`, the size of the array `shebang_line`. -/
  BINPRM_BUF_SIZE : Nat
  deriving DecidableEq, Repr

/-- What one call of `check_shebang` finds outside the program. -/
structure World where
  /-- The argument `filename`. -/
  filename : List Byte
  /-- The bytes stored at `filename`. -/
  content : List Byte
  /-- Whether `fopen` succeeds. -/
  fopenOk : Bool
  /-- Whether `mkstemp` succeeds. -/
  mkstempOk : Bool
  /-- Whether `malloc` succeeds. -/
  mallocOk : Bool
  /-- Whether `rename` succeeds. -/
  renameOk : Bool
  /-- How many bytes of the new first line the first `dprintf` stores; `none`
  when it stores them all. -/
  shebangWritten : Option Nat
  /-- How many bytes `fread` delivers; `none` when it delivers them all. -/
  freadGot : Option Nat
  /-- How many bytes of the C string at `buf` the second `dprintf` stores;
  `none` when it stores them all. -/
  bufWritten : Option Nat
  /-- How many bytes of the temporary file are kept when `close` returns;
  `none` when all are. -/
  closeKept : Option Nat
  /-- The bytes in memory from the start of the array `shebang_line` onward
  when the function is entered; the array is not initialised. -/
  stack : List Byte
  /-- The bytes in memory from the start of the block returned by `malloc`
  onward; the block is not initialised.  Bytes past the end of the list are
  terminators. -/
  heap : List Byte
  deriving DecidableEq, Repr

/-- What one call of `check_shebang` did. -/
structure Result where
  /-- The value returned. -/
  ret : Int
  /-- The bytes printed on standard output. -/
  out : List Byte
  /-- The bytes written to the temporary file, when `mkstemp` created one. -/
  tmp : Option (List Byte)
  /-- Whether `rename` moved the temporary file over `filename`. -/
  renamed : Bool
  /-- The bytes stored at `filename` afterwards. -/
  file : List Byte
  deriving DecidableEq, Repr

/-- The bytes that `fscanf (fp, "%[^\n]", shebang_line)` consumes: those
before the first newline. -/
def scanned (content : List Byte) : List Byte :=
  content.takeWhile (fun b => b != NL)

/-- The C string in `shebang_line` after the `fscanf`.  When no byte is
consumed (the file is empty or starts with a newline) nothing is stored and
the array keeps what it held. -/
def shebang_line (w : World) : List Byte :=
  if scanned w.content = [] then cstr w.stack
  else cstr (scanned w.content ++ [NUL])

/-- The bytes of `l` that a call stores or delivers: all of them, or the
first `n` when the call comes short. -/
def stored (short : Option Nat) (l : List Byte) : List Byte :=
  match short with
  | none => l
  | some n => l.take n

/-- The memory at `buf` when it is printed: after `fread` of `content_size`
bytes from offset `file_pos`, or after `strncpy (buf, "\n", 1)`.  The bytes
that `fread` does not deliver stay as they were. -/
def buf (w : World) (file_pos content_size : Nat) : List Byte :=
  if content_size > 1 then
    stored w.freadGot ((w.content.drop file_pos).take content_size)
      ++ w.heap.drop (stored w.freadGot ((w.content.drop file_pos).take content_size)).length
  else NL :: w.heap.drop 1

/-- The function `check_shebang`; `re` is its argument `shebang_regex`.  The
result is `none` when the behaviour is outside the embedding: the first line
does not fit in `shebang_line` (the `fscanf` has no field width), the pattern
does not have two subexpressions (the array `matches` has `max_groups = 3`
entries), or the size of the file does not fit in `int`. -/
def check_shebang (env : Env) (re : List Piece) (w : World) : Option Result :=
  if !w.fopenOk then
    some ⟨1, [], none, false, w.content⟩
  else if env.BINPRM_BUF_SIZE ≤ (scanned w.content).length then
    none
  else
    let line := shebang_line w
    let file_pos := (scanned w.content).length
    match regexec re line with
    | none => some ⟨0, [], none, false, w.content⟩
    | some [m0, m1, m2] =>
      if strncmp_eq (line.drop m1.rm_so) "/system".toList 7 then
        let out :=
          if !env.quiet then
            env.PACKAGE_NAME ++ ": ".toList ++ w.filename ++ ": ".toList
              ++ line.drop m1.rm_so
              ++ " used as interpreter, will not change shebang\n".toList
          else []
        some ⟨0, out, none, false, w.content⟩
      else if strncmp_eq (line.drop m1.rm_so) (env.TERMUX_PREFIX ++ "/bin/".toList)
          (env.TERMUX_PREFIX.length + 5) && !env.quiet then
        some ⟨0, env.PACKAGE_NAME ++ ": ".toList ++ w.filename
                  ++ ": already has a termux shebang\n".toList,
              none, false, w.content⟩
      else
        let new_line := "#!".toList ++ env.TERMUX_PREFIX ++ "/bin/".toList
          ++ line.drop m2.rm_so
        let out :=
          if !env.quiet then
            env.PACKAGE_NAME ++ ": ".toList ++ w.filename ++ ": rewriting ".toList
              ++ line.drop m0.rm_so ++ " to ".toList ++ new_line ++ "\n".toList
          else []
        if !w.mkstempOk then
          some ⟨1, out, none, false, w.content⟩
        else if 2 ^ 31 ≤ w.content.length then
          none
        else
          let content_size := w.content.length - file_pos
          if !w.mallocOk then
            some ⟨1, out, some (stored w.shebangWritten new_line), false, w.content⟩
          else
            let written := stored w.closeKept
              (stored w.shebangWritten new_line
                ++ stored w.bufWritten (cstr (buf w file_pos content_size)))
            if !w.renameOk then
              some ⟨1, out, some written, false, w.content⟩
            else
              some ⟨0, out, some written, true, written⟩
    | some _ => none

/-- One command-line argument of `main` after the options. -/
structure Arg where
  /-- Whether `realpath` resolves the argument. -/
  realpathOk : Bool
  /-- What the call of `check_shebang` on the resolved path finds. -/
  world : World
  deriving DecidableEq, Repr

/-- The loop of `main` over its file arguments.  The value returned by
`check_shebang` is dropped.  The arguments name different files. -/
def main_loop (env : Env) (shebang_regex : List Piece) :
    List Arg → Option (Int × List Result)
  | [] => some (0, [])
  | a :: rest =>
    if !a.realpathOk then some (1, [])
    else
      match check_shebang env shebang_regex a.world with
      | none => none
      | some r => (main_loop env shebang_regex rest).map (fun p => (p.1, r :: p.2))

/-- The function `main`, run once `getopt_long` has stored the options in
the globals of `env`, on at least one file argument.  Returns the exit status
and what each call of `check_shebang` did.  Nothing in it reads `dry_run`. -/
def main (env : Env) (args : List Arg) : Option (Int × List Result) :=
  match regcomp regex_string with
  | none => some (1, [])
  | some shebang_regex => main_loop env shebang_regex args

/-! ## Vocabulary of the statements -/

/-- The pattern `pat` occurs in `s` at offset `i`. -/
def occursAt (pat s : List Byte) (i : Nat) : Prop := pat <+: s.drop i

/-- Offset `i` is the last occurrence of `pat` in `s`. -/
def lastOccurrence (pat s : List Byte) (i : Nat) : Prop :=
  occursAt pat s i ∧ ∀ j, i < j → ¬ occursAt pat s j

/-- The text of the subject string that a `regmatch_t` spans. -/
def sub (s : List Byte) (m : regmatch_t) : List Byte :=
  (s.drop m.rm_so).take (m.rm_eo - m.rm_so)

/-- The pieces of `shebang_regex` after the first parenthesised
subexpression. -/
def tailPieces : List Piece := lits "/bin/" ++ [Piece.group Atom.any]

/-- The bytes of a file from the start of its second line onward. -/
def fromLine2 (content : List Byte) : List Byte :=
  (content.dropWhile (fun b => b != NL)).drop 1

/-- The installation prefix of Termux. -/
def termuxPrefix : List Byte := "/data/data/com.termux/files/usr".toList

/-- An environment with both flags clear, the Termux prefix and a buffer of
256 bytes. -/
def termuxEnv : Env := ⟨false, false, termuxPrefix, "termux-fix-shebang".toList, 256⟩

/-- Every read and write of the rewrite is done in full. -/
def ioComplete (w : World) : Prop :=
  w.shebangWritten = none ∧ w.freadGot = none ∧ w.bufWritten = none ∧ w.closeKept = none

/-- A world in which every call succeeds in full, for a file `/f` with the
given bytes, with `heap` as the stale bytes of the allocated block. -/
def readyWorld (content heap : List Byte) : World :=
  ⟨"/f".toList, content, true, true, true, true, none, none, none, none, [], heap⟩

/-! ## The matcher on the compiled pattern -/

theorem matchPieces_lits (cs : List Byte) (ps : List Piece) (s : List Byte) :
    matchPieces (cs.map (fun c => Piece.one (Atom.chr c)) ++ ps) s =
      if cs <+: s then
        (matchPieces ps (s.drop cs.length)).map (fun ls => List.replicate cs.length 1 ++ ls)
      else none := by
  induction cs generalizing s with
  | nil => simp
  | cons c cs ih =>
    cases s with
    | nil => simp [matchPieces]
    | cons x t =>
      simp only [List.map_cons, List.cons_append, matchPieces, Atom.accepts, ih]
      by_cases hx : x = c
      · subst hx
        by_cases hp : cs <+: t
        · simp [ih t, hp, List.replicate_succ]
          rfl
        · simp [ih t, hp]
      · have : ¬ (c :: cs <+: x :: t) := by
          intro h
          rw [List.cons_prefix_cons] at h
          exact hx h.1.symm
        simp [hx, this]

theorem matchStar_any_nil (t : List Byte) :
    matchStar Atom.any (matchPieces []) t = some (t.length, []) := by
  induction t with
  | nil => simp [matchStar, matchPieces]
  | cons x t ih => simp [matchStar, Atom.accepts, ih]

theorem matchStar_any_none (K : List Byte → Option (List Nat)) (s : List Byte) :
    matchStar Atom.any K s = none ↔ ∀ j, j ≤ s.length → K (s.drop j) = none := by
  induction s with
  | nil => simp [matchStar]
  | cons x t ih =>
    simp only [matchStar, Atom.accepts, if_true]
    cases hm : matchStar Atom.any K t with
    | some r =>
      obtain ⟨k, ls⟩ := r
      simp only [reduceCtorEq, false_iff]
      intro h
      have := (ih.mpr (fun j hj => by simpa using h (j + 1) (by simpa using hj)))
      rw [hm] at this
      cases this
    | none =>
      simp only [Option.map_eq_none']
      constructor
      · intro h j hj
        cases j with
        | zero => simpa using h
        | succ j => simpa using (ih.mp hm) j (by simpa using hj)
      · intro h
        simpa using h 0 (by simp)

theorem matchStar_any_some (K : List Byte → Option (List Nat)) (s : List Byte) (k : Nat)
    (ls : List Nat) (h : matchStar Atom.any K s = some (k, ls)) :
    k ≤ s.length ∧ K (s.drop k) = some ls ∧
      ∀ j, k < j → j ≤ s.length → K (s.drop j) = none := by
  induction s generalizing k with
  | nil =>
    simp only [matchStar, Option.map_eq_some', Prod.mk.injEq] at h
    obtain ⟨a, ha, hk, hl⟩ := h
    subst hk; subst hl
    refine ⟨by simp, by simpa using ha, ?_⟩
    intro j hj hj2
    simp at hj2
    omega
  | cons x t ih =>
    simp only [matchStar, Atom.accepts, if_true] at h
    cases hm : matchStar Atom.any K t with
    | some r =>
      obtain ⟨k1, ls1⟩ := r
      rw [hm] at h
      simp only [Option.some.injEq, Prod.mk.injEq] at h
      obtain ⟨hk, hl⟩ := h
      subst hk; subst hl
      obtain ⟨h1, h2, h3⟩ := ih k1 hm
      refine ⟨by simpa using h1, by simpa using h2, ?_⟩
      intro j hj hj2
      cases j with
      | zero => omega
      | succ j => simpa using h3 j (by omega) (by simpa using hj2)
    | none =>
      rw [hm] at h
      simp only [Option.map_eq_some', Prod.mk.injEq] at h
      obtain ⟨a, ha, hk, hl⟩ := h
      subst hk; subst hl
      refine ⟨by simp, by simpa using ha, ?_⟩
      intro j hj hj2
      cases j with
      | zero => omega
      | succ j =>
        simpa using ((matchStar_any_none K t).mp hm) j (by simpa using hj2)


theorem matchPieces_group (a : Atom) (ps : List Piece) (s : List Byte) :
    matchPieces (Piece.group a :: ps) s =
      (matchStar a (matchPieces ps) s).map (fun r => r.1 :: r.2) := rfl

theorem matchPieces_group_nil (t : List Byte) :
    matchPieces [Piece.group Atom.any] t = some [t.length] := by
  rw [matchPieces_group, matchStar_any_nil]
  rfl

theorem matchPieces_tail (t : List Byte) :
    matchPieces tailPieces t =
      if "/bin/".toList <+: t then some [1, 1, 1, 1, 1, t.length - 5] else none := by
  unfold tailPieces lits
  rw [matchPieces_lits]
  by_cases hp : "/bin/".toList <+: t
  · rw [if_pos hp, if_pos hp, matchPieces_group_nil]
    simp
  · rw [if_neg hp, if_neg hp]

theorem matchPieces_group_tail (s : List Byte) (ls : List Nat)
    (h : matchPieces (Piece.group Atom.any :: tailPieces) s = some ls) :
    ∃ k, lastOccurrence "/bin/".toList s k ∧ ls = [k, 1, 1, 1, 1, 1, s.length - k - 5] := by
  rw [matchPieces_group, Option.map_eq_some'] at h
  obtain ⟨⟨k, l⟩, hm, hl⟩ := h
  obtain ⟨h1, h2, h3⟩ := matchStar_any_some _ _ _ _ hm
  rw [matchPieces_tail] at h2
  by_cases hp : "/bin/".toList <+: s.drop k
  · rw [if_pos hp] at h2
    refine ⟨k, ⟨hp, ?_⟩, ?_⟩
    · intro j hj hocc
      by_cases hjl : j ≤ s.length
      · have := h3 j hj hjl
        have hocc2 : "/bin/".toList <+: s.drop j := hocc
        rw [matchPieces_tail, if_pos hocc2] at this
        cases this
      · have hnil : s.drop j = [] := List.drop_eq_nil_of_le (by omega)
        unfold occursAt at hocc
        rw [hnil] at hocc
        simp at hocc
    · simp only [Option.some.injEq] at h2
      subst hl
      rw [← h2]
      simp [Nat.sub_sub]
  · rw [if_neg hp] at h2
    cases h2

theorem matchPieces_one_cons (a : Atom) (ps : List Piece) (x : Byte) (t : List Byte) :
    matchPieces (Piece.one a :: ps) (x :: t) =
      if a.accepts x then (matchPieces ps t).map (fun ls => 1 :: ls) else none := rfl

theorem matchPieces_one_nil (a : Atom) (ps : List Piece) :
    matchPieces (Piece.one a :: ps) [] = none := rfl

theorem matchPieces_opt_nil (a : Atom) (ps : List Piece) :
    matchPieces (Piece.opt a :: ps) [] = (matchPieces ps []).map (fun ls => 0 :: ls) := rfl

theorem matchPieces_opt_cons (a : Atom) (ps : List Piece) (x : Byte) (t : List Byte) :
    matchPieces (Piece.opt a :: ps) (x :: t) =
      if a.accepts x then
        match matchPieces ps t with
        | some ls => some (1 :: ls)
        | none => (matchPieces ps (x :: t)).map (fun ls => 0 :: ls)
      else (matchPieces ps (x :: t)).map (fun ls => 0 :: ls) := rfl

theorem lastOccurrence_cons (pat t : List Byte) (x : Byte) (k : Nat)
    (h : lastOccurrence pat t k) : lastOccurrence pat (x :: t) (k + 1) := by
  refine ⟨by simpa [occursAt] using h.1, ?_⟩
  intro j hj
  cases j with
  | zero => omega
  | succ j => simpa [occursAt] using h.2 j (by omega)

theorem lastOccurrence_drop (pat s : List Byte) (i q : Nat)
    (h : lastOccurrence pat (s.drop i) q) : lastOccurrence pat s (i + q) := by
  refine ⟨by simpa [occursAt, List.drop_drop, Nat.add_comm] using h.1, ?_⟩
  intro j hj
  have := h.2 (j - i) (by omega)
  have hji : i + (j - i) = j := by omega
  simpa [occursAt, List.drop_drop, hji, Nat.add_comm] using this

theorem matchPieces_opt_group_tail (a : Atom) (s : List Byte) (ls : List Nat)
    (h : matchPieces (Piece.opt a :: Piece.group Atom.any :: tailPieces) s = some ls) :
    ∃ o k, o ≤ 1 ∧ lastOccurrence "/bin/".toList s (o + k) ∧
      ls = [o, k, 1, 1, 1, 1, 1, s.length - (o + k) - 5] ∧
      (o = 1 → ∃ x t, s = x :: t ∧ a.accepts x = true) := by
  have zero_case : ∀ u : List Byte, ∀ l : List Nat,
      (matchPieces (Piece.group Atom.any :: tailPieces) u).map (fun ls => 0 :: ls) = some l →
      ∃ o k, o ≤ 1 ∧ lastOccurrence "/bin/".toList u (o + k) ∧
        l = [o, k, 1, 1, 1, 1, 1, u.length - (o + k) - 5] ∧
        (o = 1 → ∃ x t, u = x :: t ∧ a.accepts x = true) := by
    intro u l hu
    rw [Option.map_eq_some'] at hu
    obtain ⟨l1, hl1, rfl⟩ := hu
    obtain ⟨k, hk, rfl⟩ := matchPieces_group_tail u l1 hl1
    exact ⟨0, k, by omega, by simpa using hk, by simp, by intro h0; omega⟩
  cases s with
  | nil =>
    rw [matchPieces_opt_nil] at h
    exact zero_case [] ls h
  | cons x t =>
    rw [matchPieces_opt_cons] at h
    by_cases hx : a.accepts x = true
    · rw [if_pos hx] at h
      cases hm : matchPieces (Piece.group Atom.any :: tailPieces) t with
      | some l1 =>
        rw [hm] at h
        simp only [Option.some.injEq] at h
        obtain ⟨k, hk, rfl⟩ := matchPieces_group_tail t l1 hm
        refine ⟨1, k, by omega, ?_, ?_, fun _ => ⟨x, t, rfl, hx⟩⟩
        · have := lastOccurrence_cons _ _ x _ hk
          simpa [Nat.add_comm] using this
        · rw [← h]
          simp
          omega
      | none =>
        rw [hm] at h
        exact zero_case (x :: t) ls h
    · rw [if_neg hx] at h
      exact zero_case (x :: t) ls h

/-- The pattern string of `main` compiles to `shebang_regex`. -/
theorem regcomp_regex_string : regcomp regex_string = some shebang_regex := by
  decide

theorem shebang_regex_eq : shebang_regex =
    Piece.one (Atom.chr '#') :: Piece.one (Atom.chr '!') ::
      Piece.opt (Atom.bracket ":space:".toList) :: Piece.group Atom.any :: tailPieces := rfl

theorem matchPieces_shebang (s : List Byte) (ls : List Nat)
    (h : matchPieces shebang_regex s = some ls) :
    ∃ o k, "#!".toList <+: s ∧ o ≤ 1 ∧ lastOccurrence "/bin/".toList s (2 + o + k) ∧
      ls = [1, 1, o, k, 1, 1, 1, 1, 1, s.length - (2 + o + k) - 5] ∧
      (o = 1 → ∃ x, s.get? 2 = some x ∧ x ∈ ":space:".toList) := by
  rw [shebang_regex_eq] at h
  match s, h with
  | [], h => rw [matchPieces_one_nil] at h; cases h
  | [x], h =>
    rw [matchPieces_one_cons] at h
    split at h
    · rw [matchPieces_one_nil] at h; cases h
    · cases h
  | x :: y :: t, h =>
    rw [matchPieces_one_cons] at h
    split at h
    next hx =>
      rw [matchPieces_one_cons] at h
      split at h
      next hy =>
        simp only [Option.map_eq_some'] at h
        obtain ⟨l1, ⟨l2, hl2, rfl⟩, rfl⟩ := h
        obtain ⟨o, k, ho, hk, rfl, hacc⟩ := matchPieces_opt_group_tail _ t l2 hl2
        simp only [Atom.accepts, beq_iff_eq] at hx hy
        subst hx; subst hy
        refine ⟨o, k, ?_, ho, ?_, ?_, ?_⟩
        · exact ⟨t, rfl⟩
        · have := lastOccurrence_cons _ _ '!' _ hk
          have := lastOccurrence_cons _ _ '#' _ this
          have e : o + k + 1 + 1 = 2 + o + k := by omega
          rwa [e] at this
        · simp
          omega
        · intro h1
          obtain ⟨z, u, rfl, hz⟩ := hacc h1
          refine ⟨z, rfl, ?_⟩
          simpa [Atom.accepts] using hz
      next => simp at h
    next => cases h

theorem searchFrom_some (re : List Piece) (s : List Byte) (off p : Nat) (ls : List Nat)
    (h : searchFrom re s off = some (p, ls)) :
    ∃ i, p = off + i ∧ i ≤ s.length ∧ matchPieces re (s.drop i) = some ls ∧
      ∀ j, j < i → matchPieces re (s.drop j) = none := by
  induction s generalizing off with
  | nil =>
    simp only [searchFrom, Option.map_eq_some', Prod.mk.injEq] at h
    obtain ⟨l, hl, rfl, rfl⟩ := h
    exact ⟨0, rfl, by simp, by simpa using hl, by intro j hj; omega⟩
  | cons x t ih =>
    rw [searchFrom] at h
    cases hm : matchPieces re (x :: t) with
    | some l =>
      rw [hm] at h
      simp only [Option.some.injEq, Prod.mk.injEq] at h
      obtain ⟨rfl, rfl⟩ := h
      exact ⟨0, rfl, by simp, by simpa using hm, by intro j hj; omega⟩
    | none =>
      rw [hm] at h
      obtain ⟨i, hi, hil, hmi, hlt⟩ := ih (off + 1) h
      refine ⟨i + 1, by omega, by simpa using hil, by simpa using hmi, ?_⟩
      intro j hj
      cases j with
      | zero => simpa using hm
      | succ j => simpa using hlt j (by omega)


theorem occursAt_length (pat s : List Byte) (i : Nat) (h : occursAt pat s i) :
    i + pat.length ≤ s.length ∨ pat = [] := by
  by_cases hp : pat = []
  · exact Or.inr hp
  · left
    have hl := h.length_le
    simp only [List.length_drop] at hl
    have : 0 < pat.length := List.length_pos.mpr hp
    omega

theorem regexec_shebang (line : List Byte) (M : List regmatch_t)
    (h : regexec shebang_regex line = some M) :
    ∃ p o k, M = [⟨p, line.length⟩, ⟨p + 2 + o, p + 2 + o + k⟩,
        ⟨p + 2 + o + k + 5, line.length⟩] ∧
      o ≤ 1 ∧ "#!".toList <+: line.drop p ∧
      lastOccurrence "/bin/".toList line (p + 2 + o + k) ∧
      (∀ j, j < p → matchPieces shebang_regex (line.drop j) = none) ∧
      (o = 1 → ∃ x, line.get? (p + 2) = some x ∧ x ∈ ":space:".toList) := by
  unfold regexec at h
  rw [Option.map_eq_some'] at h
  obtain ⟨⟨p, ls⟩, hs, rfl⟩ := h
  obtain ⟨i, hp, hil, hm, hleft⟩ := searchFrom_some _ _ _ _ _ hs
  simp only [Nat.zero_add] at hp
  subst hp
  obtain ⟨o, k, hpre, ho, hlast, rfl, hopt⟩ := matchPieces_shebang _ _ hm
  have hlast2 := lastOccurrence_drop _ _ _ _ hlast
  have hlen := occursAt_length _ _ _ hlast2.1
  have hlen2 : p + (2 + o + k) + 5 ≤ line.length := by
    rcases hlen with h1 | h1
    · simpa using h1
    · simp at h1
  refine ⟨p, o, k, ?_, ho, hpre, ?_, hleft, ?_⟩
  · simp only [shebang_regex_eq, tailPieces, lits, groupSpans, List.length_drop]
    simp
    constructor <;> omega
  · have e : p + (2 + o + k) = p + 2 + o + k := by omega
    rwa [e] at hlast2
  · intro h1
    obtain ⟨x, hx, hmem⟩ := hopt h1
    refine ⟨x, ?_, hmem⟩
    rw [List.get?_eq_getElem?, List.getElem?_drop] at hx
    rw [List.get?_eq_getElem?]
    exact hx


theorem strncmp_eq_of_isPrefix (pat a : List Byte) (h : pat <+: a) :
    strncmp_eq a pat pat.length = true := by
  obtain ⟨r, rfl⟩ := h
  simp [strncmp_eq]

theorem cstr_append_terminated (a heap : List Byte) (n : Nat)
    (ha : ∀ x ∈ a, x ≠ NUL) (hterm : heap.getD n NUL = NUL) :
    cstr (a ++ heap.drop n) = a := by
  unfold cstr
  rw [List.takeWhile_append_of_pos (by simpa using ha)]
  cases hd : heap.drop n with
  | nil => simp
  | cons y u =>
    have hy : heap.getD n NUL = y := by
      have h0 : (heap.drop n)[0]? = some y := by rw [hd]; simp
      rw [List.getElem?_drop] at h0
      simp only [Nat.add_zero] at h0
      rw [List.getD_eq_getElem?_getD, h0]
      rfl
    rw [hterm] at hy
    subst hy
    simp

theorem fread_all (content : List Byte) (file_pos : Nat) :
    (content.drop file_pos).take (content.length - file_pos) = content.drop file_pos := by
  apply List.take_of_length_le
  simp

/-- The memory at `buf` when `fread` delivers all the bytes. -/
theorem buf_complete (w : World) (file_pos : Nat) (hread : w.freadGot = none) :
    buf w file_pos (w.content.length - file_pos) =
      if w.content.length - file_pos > 1 then
        w.content.drop file_pos ++ w.heap.drop (w.content.length - file_pos)
      else NL :: w.heap.drop 1 := by
  unfold buf
  rw [hread, fread_all]
  simp [stored]

/-- The call is inside the embedding when the first line fits in
`shebang_line` and the size of the file fits in `int`. -/
theorem check_shebang_isSome (env : Env) (w : World)
    (hfit : (scanned w.content).length < env.BINPRM_BUF_SIZE)
    (hsize : w.content.length < 2 ^ 31) :
    (check_shebang env shebang_regex w).isSome = true := by
  have hfit2 : ¬ env.BINPRM_BUF_SIZE ≤ (scanned w.content).length := by omega
  have hsize2 : ¬ 2 ^ 31 ≤ w.content.length := by omega
  cases hre : regexec shebang_regex (shebang_line w) with
  | none =>
    unfold check_shebang
    simp only [hfit2, if_false, hre]
    split_ifs <;> rfl
  | some M =>
    obtain ⟨p, o, k, rfl, -⟩ := regexec_shebang _ _ hre
    unfold check_shebang
    simp only [hfit2, hsize2, if_false, hre]
    split_ifs <;> rfl

/-- The text of group 2 is what `shebang_line + matches[2].rm_so` points to. -/
theorem drop_group2 (line : List Byte) (m0 m1 m2 : regmatch_t)
    (h : regexec shebang_regex line = some [m0, m1, m2]) :
    line.drop m2.rm_so = sub line m2 := by
  obtain ⟨p, o, k, hM, -⟩ := regexec_shebang _ _ h
  simp only [Option.some.injEq, List.cons.injEq, and_true] at hM
  obtain ⟨rfl, rfl, rfl⟩ := hM
  unfold sub
  symm
  apply List.take_of_length_le
  simp

/-- A non-zero return value means that `fopen`, `mkstemp`, `malloc` or
`rename` failed, and then the bytes at `filename` are those found before the
call and nothing was renamed. -/
theorem nonzero_return_keeps_file (env : Env) (w : World) (r : Result)
    (h : check_shebang env shebang_regex w = some r) (hret : r.ret ≠ 0) :
    r.file = w.content ∧ r.renamed = false ∧
      (w.fopenOk = false ∨ w.mkstempOk = false ∨ w.mallocOk = false ∨ w.renameOk = false) := by
  unfold check_shebang at h
  cases hopen : w.fopenOk with
  | false =>
    simp only [hopen, Bool.not_false, if_true, Option.some.injEq] at h
    subst h
    simp
  | true =>
    simp only [hopen, Bool.not_true, Bool.false_eq_true, if_false] at h
    by_cases hfit : env.BINPRM_BUF_SIZE ≤ (scanned w.content).length
    · simp [hfit] at h
    · simp only [hfit, if_false] at h
      cases hre : regexec shebang_regex (shebang_line w) with
      | none =>
        simp only [hre, Option.some.injEq] at h
        subst h
        simp at hret
      | some M =>
        obtain ⟨p, o, k, rfl, -⟩ := regexec_shebang _ _ hre
        simp only [hre] at h
        split_ifs at h
        all_goals simp only [Option.some.injEq] at h
        all_goals subst h
        all_goals simp_all

/-- When the rename is done, the call returns 0 and the file holds what the
two `dprintf` stored of the new first line and of the C string found at
`buf`, as far as `close` kept it. -/
theorem check_shebang_renamed (env : Env) (w : World) (m0 m1 m2 : regmatch_t) (r : Result)
    (hmatch : regexec shebang_regex (shebang_line w) = some [m0, m1, m2])
    (h : check_shebang env shebang_regex w = some r) (hren : r.renamed = true) :
    r.ret = 0 ∧
      r.file = stored w.closeKept
        (stored w.shebangWritten
            ("#!".toList ++ env.TERMUX_PREFIX ++ "/bin/".toList ++ sub (shebang_line w) m2)
          ++ stored w.bufWritten (cstr (buf w (scanned w.content).length
              (w.content.length - (scanned w.content).length)))) := by
  rw [← drop_group2 _ m0 m1 m2 hmatch]
  unfold check_shebang at h
  cases hopen : w.fopenOk with
  | false =>
    simp only [hopen, Bool.not_false, if_true, Option.some.injEq] at h
    subst h
    simp at hren
  | true =>
    simp only [hopen, Bool.not_true, Bool.false_eq_true, if_false] at h
    by_cases hfit : env.BINPRM_BUF_SIZE ≤ (scanned w.content).length
    · simp [hfit] at h
    · simp only [hfit, if_false, hmatch] at h
      split_ifs at h
      all_goals simp only [Option.some.injEq] at h
      all_goals subst h
      all_goals first
        | (exfalso; simp at hren; done)
        | exact ⟨rfl, rfl⟩

/-- A remainder of two bytes or more that holds no NUL is copied whole when
every read and write is done in full and a NUL follows the remainder in the
allocated block: the file becomes the new first line followed by the bytes of
the old file from its first newline on. -/
theorem text_remainder_when_terminated (env : Env) (w : World) (m0 m1 m2 : regmatch_t)
    (r : Result)
    (hmatch : regexec shebang_regex (shebang_line w) = some [m0, m1, m2])
    (h : check_shebang env shebang_regex w = some r) (hren : r.renamed = true)
    (hio : ioComplete w)
    (hlong : 1 < w.content.length - (scanned w.content).length)
    (hnul : ∀ x ∈ w.content.drop (scanned w.content).length, x ≠ NUL)
    (hterm : w.heap.getD (w.content.length - (scanned w.content).length) NUL = NUL) :
    r.file = "#!".toList ++ env.TERMUX_PREFIX ++ "/bin/".toList ++ sub (shebang_line w) m2
      ++ w.content.drop (scanned w.content).length := by
  obtain ⟨h1, h2, h3, h4⟩ := hio
  rw [(check_shebang_renamed env w m0 m1 m2 r hmatch h hren).2, h1, h3, h4,
    buf_complete w _ h2, if_pos hlong, cstr_append_terminated _ _ _ hnul hterm]
  rfl

/-- A remainder of at most one byte is replaced by one newline when every
write is done in full and a NUL follows the first byte of the allocated
block. -/
theorem short_remainder_when_terminated (env : Env) (w : World) (m0 m1 m2 : regmatch_t)
    (r : Result)
    (hmatch : regexec shebang_regex (shebang_line w) = some [m0, m1, m2])
    (h : check_shebang env shebang_regex w = some r) (hren : r.renamed = true)
    (hio : ioComplete w)
    (hshort : w.content.length - (scanned w.content).length ≤ 1)
    (hterm : w.heap.getD 1 NUL = NUL) :
    r.file = "#!".toList ++ env.TERMUX_PREFIX ++ "/bin/".toList ++ sub (shebang_line w) m2
      ++ [NL] := by
  obtain ⟨h1, h2, h3, h4⟩ := hio
  have hc := cstr_append_terminated [NL] w.heap 1 (by simp [NL, NUL]) hterm
  rw [List.singleton_append] at hc
  rw [(check_shebang_renamed env w m0 m1 m2 r hmatch h hren).2, h1, h3, h4,
    buf_complete w _ h2, if_neg (by omega), hc]
  rfl

/-- The flag `dry_run` changes nothing in what `check_shebang` does. -/
theorem check_shebang_dry_run (env : Env) (w : World) (b : Bool) :
    check_shebang { env with dry_run := b } shebang_regex w
      = check_shebang env shebang_regex w := rfl

/-! ## The claims -/

/-- C1.  A remainder that holds a NUL byte is not preserved: `buf` is written
with `dprintf (new_fd, "%s", buf)`, which stops at the first NUL.  For the file
`#!/bin/sh\necho a\0echo b\n` the rewritten file is
`#!<TERMUX_PREFIX>/bin/sh\necho a`, so from line 2 onward it holds `echo a`
where the original holds `echo a\0echo b\n`. -/
theorem nul_in_remainder_truncates :
    check_shebang termuxEnv shebang_regex (readyWorld "#!/bin/sh\necho a\x00echo b\n".toList [])
        = some ⟨0,
            ("termux-fix-shebang: /f: rewriting #!/bin/sh to "
              ++ "#!/data/data/com.termux/files/usr/bin/sh\n").toList,
            some "#!/data/data/com.termux/files/usr/bin/sh\necho a".toList, true,
            "#!/data/data/com.termux/files/usr/bin/sh\necho a".toList⟩ ∧
      fromLine2 "#!/bin/sh\necho a\x00echo b\n".toList = "echo a\x00echo b\n".toList ∧
      fromLine2 "#!/data/data/com.termux/files/usr/bin/sh\necho a".toList = "echo a".toList ∧
      fromLine2 "#!/data/data/com.termux/files/usr/bin/sh\necho a".toList
        ≠ fromLine2 "#!/bin/sh\necho a\x00echo b\n".toList := by
  decide

/-- C2.  With `dry_run` set, `main` still rewrites the file
`#!/usr/bin/env bash\necho hi\n`: a temporary file is written and renamed over
it.  No statement of `check_shebang` or of `main` reads `dry_run`. -/
theorem dry_run_still_rewrites :
    main { termuxEnv with dry_run := true }
        [⟨true, readyWorld "#!/usr/bin/env bash\necho hi\n".toList []⟩]
      = some (0, [⟨0,
          ("termux-fix-shebang: /f: rewriting #!/usr/bin/env bash to "
            ++ "#!/data/data/com.termux/files/usr/bin/env bash\n").toList,
          some "#!/data/data/com.termux/files/usr/bin/env bash\necho hi\n".toList, true,
          "#!/data/data/com.termux/files/usr/bin/env bash\necho hi\n".toList⟩]) := by
  decide

/-- C3.  When `fopen` succeeds, the first line fits in `shebang_line`, the
pattern matches and the text of group 1 starts with `/system`, then whatever
`quiet`, `dry_run` and the other fields of `env` and `w` are, `check_shebang`
returns 0, creates no temporary file, renames nothing and leaves the bytes of
the file as they were; it prints the notice unless `quiet` is set. -/
theorem system_interpreter_untouched (env : Env) (w : World) (m0 m1 m2 : regmatch_t)
    (hopen : w.fopenOk = true)
    (hfit : (scanned w.content).length < env.BINPRM_BUF_SIZE)
    (hmatch : regexec shebang_regex (shebang_line w) = some [m0, m1, m2])
    (hsys : "/system".toList <+: sub (shebang_line w) m1) :
    check_shebang env shebang_regex w =
        some ⟨0,
          if env.quiet then []
          else env.PACKAGE_NAME ++ ": ".toList ++ w.filename ++ ": ".toList
            ++ (shebang_line w).drop m1.rm_so
            ++ " used as interpreter, will not change shebang\n".toList,
          none, false, w.content⟩ := by
  have hpre : "/system".toList <+: (shebang_line w).drop m1.rm_so :=
    hsys.trans ( List.take_prefix _ _)
  have hcmp : strncmp_eq ((shebang_line w).drop m1.rm_so) "/system".toList 7 = true :=
    strncmp_eq_of_isPrefix _ _ hpre
  have hfit2 : ¬ env.BINPRM_BUF_SIZE ≤ (scanned w.content).length := by omega
  unfold check_shebang
  simp only [hopen, hfit2, hmatch, hcmp]
  cases env.quiet <;> simp

/-- Scenario B of the specification, as an instance of C3: the file
`#!/system/bin/sh\nexit 0\n` is left as it is. -/
theorem system_interpreter_untouched_witness :
    regexec shebang_regex (shebang_line (readyWorld "#!/system/bin/sh\nexit 0\n".toList []))
        = some [⟨0, 16⟩, ⟨2, 9⟩, ⟨14, 16⟩] ∧
      check_shebang termuxEnv shebang_regex (readyWorld "#!/system/bin/sh\nexit 0\n".toList [])
        = some ⟨0,
            ("termux-fix-shebang: /f: /system/bin/sh used as interpreter,"
              ++ " will not change shebang\n").toList,
            none, false, "#!/system/bin/sh\nexit 0\n".toList⟩ :=
  ⟨by decide,
   system_interpreter_untouched termuxEnv (readyWorld "#!/system/bin/sh\nexit 0\n".toList [])
     ⟨0, 16⟩ ⟨2, 9⟩ ⟨14, 16⟩ (by decide) (by decide) (by decide) (by decide)⟩

/-- C4.  With `quiet` set, a file whose only bytes are the first line
`#!<TERMUX_PREFIX>/bin/sh` is not left as it is: the test for a Termux shebang
is `strncmp (...) == 0 && !quiet`, so the call goes on to the rewrite, and the
file gets a newline appended. -/
theorem quiet_rewrites_termux_shebang :
    check_shebang { termuxEnv with quiet := true } shebang_regex
        (readyWorld "#!/data/data/com.termux/files/usr/bin/sh".toList [])
      = some ⟨0, [], some "#!/data/data/com.termux/files/usr/bin/sh\n".toList, true,
          "#!/data/data/com.termux/files/usr/bin/sh\n".toList⟩ ∧
    check_shebang termuxEnv shebang_regex
        (readyWorld "#!/data/data/com.termux/files/usr/bin/sh".toList [])
      = some ⟨0, "termux-fix-shebang: /f: already has a termux shebang\n".toList,
          none, false, "#!/data/data/com.termux/files/usr/bin/sh".toList⟩ := by
  decide

/-- C5, as stated, fails: for `#!/usr/bin/env bash\necho hi\n` the file
written is not `#!/data/data/com.termux/files/usr/bin/bash\necho hi\n`. -/
theorem scenario_A_not_bash :
    ¬ ∃ r, check_shebang termuxEnv shebang_regex
            (readyWorld "#!/usr/bin/env bash\necho hi\n".toList []) = some r ∧
        r.file = "#!/data/data/com.termux/files/usr/bin/bash\necho hi\n".toList := by
  decide

/-- C5, amended.  With the Termux prefix, a buffer longer than the first line,
every call succeeding, every read and write done in full and a NUL after the
9 bytes copied into the allocated block, `check_shebang` on
`#!/usr/bin/env bash\necho hi\n` returns 0 and leaves exactly
`#!/data/data/com.termux/files/usr/bin/env bash\necho hi\n`: all the text
after the last `/bin/`, here `env bash`, is kept. -/
theorem scenario_A_env_bash (env : Env) (w : World)
    (hP : env.TERMUX_PREFIX = termuxPrefix)
    (hc : w.content = "#!/usr/bin/env bash\necho hi\n".toList)
    (hbuf : 19 < env.BINPRM_BUF_SIZE)
    (hopen : w.fopenOk = true) (hmk : w.mkstempOk = true) (hmalloc : w.mallocOk = true)
    (hren : w.renameOk = true) (hio : ioComplete w) (hterm : w.heap.getD 9 NUL = NUL) :
    ∃ r, check_shebang env shebang_regex w = some r ∧ r.ret = 0 ∧ r.renamed = true ∧
      r.file = "#!/data/data/com.termux/files/usr/bin/env bash\necho hi\n".toList := by
  obtain ⟨h1, h2, h3, h4⟩ := hio
  have hscan : scanned w.content = "#!/usr/bin/env bash".toList := by rw [hc]; rfl
  have hline : shebang_line w = "#!/usr/bin/env bash".toList := by
    unfold shebang_line
    rw [hscan]
    rfl
  have hre : regexec shebang_regex "#!/usr/bin/env bash".toList
      = some [⟨0, 19⟩, ⟨2, 6⟩, ⟨11, 19⟩] := by rfl
  have hlen : (scanned w.content).length = 19 := by rw [hscan]; rfl
  have hclen : w.content.length = 28 := by rw [hc]; rfl
  have hsys : strncmp_eq ("#!/usr/bin/env bash".toList.drop 2) "/system".toList 7 = false := by
    rfl
  have hpre : strncmp_eq ("#!/usr/bin/env bash".toList.drop 2)
      (termuxPrefix ++ "/bin/".toList) (termuxPrefix.length + 5) = false := by rfl
  have hbufc : cstr (buf w 19 (28 - 19)) = "\necho hi\n".toList := by
    have hb := buf_complete w 19 h2
    rw [hclen] at hb
    rw [hb, if_pos (by omega), hc]
    exact cstr_append_terminated "\necho hi\n".toList w.heap 9 (by decide) hterm
  unfold check_shebang
  simp only [hopen, hmk, hmalloc, hren, hline, hre, hlen, hclen, hP, hsys, hpre, hbufc,
    h1, h3, h4, stored]
  simp [show ¬ env.BINPRM_BUF_SIZE ≤ 19 by omega]
  rfl

/-- The instance of the amended C5 in a world with no stale bytes. -/
theorem scenario_A_env_bash_witness :
    ∃ r, check_shebang termuxEnv shebang_regex
          (readyWorld "#!/usr/bin/env bash\necho hi\n".toList []) = some r ∧
      r.ret = 0 ∧ r.renamed = true ∧
      r.file = "#!/data/data/com.termux/files/usr/bin/env bash\necho hi\n".toList :=
  scenario_A_env_bash termuxEnv (readyWorld "#!/usr/bin/env bash\necho hi\n".toList [])
    rfl rfl (by decide) rfl rfl rfl rfl ⟨rfl, rfl, rfl, rfl⟩ (by decide)

/-- C6.  A file that does not start with `#!` is rewritten when `#!` and a
later `/bin/` stand further along its first line, because the pattern has no
anchor: `echo '#!/bin/sh' > run.sh\nchmod +x run.sh\n` loses the start of its
first line and a `rewriting` line is printed. -/
theorem unanchored_pattern_rewrites :
    "echo '#!/bin/sh' > run.sh\nchmod +x run.sh\n".toList.take 2 ≠ "#!".toList ∧
    check_shebang termuxEnv shebang_regex
        (readyWorld "echo '#!/bin/sh' > run.sh\nchmod +x run.sh\n".toList [])
      = some ⟨0,
          ("termux-fix-shebang: /f: rewriting #!/bin/sh' > run.sh to "
            ++ "#!/data/data/com.termux/files/usr/bin/sh' > run.sh\n").toList,
          some ("#!/data/data/com.termux/files/usr/bin/sh' > run.sh\n"
            ++ "chmod +x run.sh\n").toList,
          true,
          ("#!/data/data/com.termux/files/usr/bin/sh' > run.sh\n"
            ++ "chmod +x run.sh\n").toList⟩ := by
  decide

/-- C7.  A space after `#!` is not consumed: the optional item of the pattern
is the bracket expression `[:space:]`, which lists the letters of the word and
the colon.  For `#! /system/bin/sh` group 1 is ` /system`, with the space,
where `#!/system/bin/sh` gives `/system`; the file is not taken as protected
and is rewritten. -/
theorem space_after_hashbang_not_skipped :
    regexec shebang_regex "#! /system/bin/sh".toList = some [⟨0, 17⟩, ⟨2, 10⟩, ⟨15, 17⟩] ∧
    sub "#! /system/bin/sh".toList ⟨2, 10⟩ = " /system".toList ∧
    regexec shebang_regex "#!/system/bin/sh".toList = some [⟨0, 16⟩, ⟨2, 9⟩, ⟨14, 16⟩] ∧
    sub "#!/system/bin/sh".toList ⟨2, 9⟩ = "/system".toList ∧
    check_shebang termuxEnv shebang_regex (readyWorld "#! /system/bin/sh\nexit 0\n".toList [])
      = some ⟨0,
          ("termux-fix-shebang: /f: rewriting #! /system/bin/sh to "
            ++ "#!/data/data/com.termux/files/usr/bin/sh\n").toList,
          some "#!/data/data/com.termux/files/usr/bin/sh\nexit 0\n".toList, true,
          "#!/data/data/com.termux/files/usr/bin/sh\nexit 0\n".toList⟩ := by
  decide

/-- C8.  The file is not always either unchanged or wholly replaced: the
results of both `dprintf`, of `fread` and of `close` are dropped and the
`rename` is done whatever the temporary file holds.  When `fopen`, `mkstemp`,
`malloc` and `rename` succeed on
`#!/usr/bin/env bash\necho hello world from termux\n` and the second `dprintf`
stores 20 of its 30 bytes, `check_shebang` returns 0 and the file is left as
`#!<TERMUX_PREFIX>/bin/env bash\necho hello world fr`; the complete new
content, written when every call stores all its bytes, is
`#!<TERMUX_PREFIX>/bin/env bash\necho hello world from termux\n`. -/
theorem short_write_replaces_file :
    check_shebang termuxEnv shebang_regex
        { readyWorld "#!/usr/bin/env bash\necho hello world from termux\n".toList [] with
          bufWritten := some 20 }
      = some ⟨0,
          ("termux-fix-shebang: /f: rewriting #!/usr/bin/env bash to "
            ++ "#!/data/data/com.termux/files/usr/bin/env bash\n").toList,
          some ("#!/data/data/com.termux/files/usr/bin/env bash\n"
            ++ "echo hello world fr").toList,
          true,
          ("#!/data/data/com.termux/files/usr/bin/env bash\n"
            ++ "echo hello world fr").toList⟩ ∧
    check_shebang termuxEnv shebang_regex
        (readyWorld "#!/usr/bin/env bash\necho hello world from termux\n".toList [])
      = some ⟨0,
          ("termux-fix-shebang: /f: rewriting #!/usr/bin/env bash to "
            ++ "#!/data/data/com.termux/files/usr/bin/env bash\n").toList,
          some ("#!/data/data/com.termux/files/usr/bin/env bash\n"
            ++ "echo hello world from termux\n").toList,
          true,
          ("#!/data/data/com.termux/files/usr/bin/env bash\n"
            ++ "echo hello world from termux\n").toList⟩ := by
  decide

/-- C9.  For the file `#!/usr/bin/env perl\n`, whose content after the first
line is the single newline, the rewritten file is not the new shebang and one
newline when the allocated block holds a stale byte: `strncpy (buf, "\n", 1)`
stores the newline alone, no terminator is ever stored, and
`dprintf (new_fd, "%s", buf)` goes on to copy the byte `X` that follows. -/
theorem short_remainder_copies_stale_bytes :
    check_shebang termuxEnv shebang_regex (readyWorld "#!/usr/bin/env perl\n".toList "?X".toList)
      = some ⟨0,
          ("termux-fix-shebang: /f: rewriting #!/usr/bin/env perl to "
            ++ "#!/data/data/com.termux/files/usr/bin/env perl\n").toList,
          some "#!/data/data/com.termux/files/usr/bin/env perl\nX".toList, true,
          "#!/data/data/com.termux/files/usr/bin/env perl\nX".toList⟩ ∧
    check_shebang termuxEnv shebang_regex (readyWorld "#!/usr/bin/env perl".toList "?X".toList)
      = some ⟨0,
          ("termux-fix-shebang: /f: rewriting #!/usr/bin/env perl to "
            ++ "#!/data/data/com.termux/files/usr/bin/env perl\n").toList,
          some "#!/data/data/com.termux/files/usr/bin/env perl\nX".toList, true,
          "#!/data/data/com.termux/files/usr/bin/env perl\nX".toList⟩ := by
  decide

end FixShebang
